import Mathlib

/-!
Verification of the point-cloud sampling module (`src/topology/point_cloud.rs`).

The Rust module generates synthetic point clouds on a circle, a sphere surface,
a solid ball and a torus, optionally perturbed by uniform noise.  We embed the
module shallowly over the real numbers:

* the random number generator is modelled as an explicit stream of underlying
  uniform draws in `[0,1)` (one `ℝ` per call to the generator);
* `rand`'s `Rng::gen_range(lo..hi)` on `f64` panics when `lo ≥ hi` and otherwise
  returns `lo + u * (hi - lo) ∈ [lo, hi)` for an underlying uniform draw
  `u ∈ [0,1)`; we model it as an `Option`-valued affine map, `none` standing for
  the panic;
* `Rng::gen::<f64>()` returns the underlying uniform draw in `[0,1)` directly;
* panics (the torus radius assertion, invalid `gen_range` bounds) make the
  whole call return `none`;
* `f64` arithmetic is idealised as exact real arithmetic, so "within
  floating-point tolerance" statements become exact equalities over `ℝ`.

Each sampler takes the draw stream(s) explicitly: `u : ℕ → ℝ` for the draws
consumed while generating the raw points (consumed in program order), and
`η : ℕ → ℕ → ℝ` for the underlying draws of the noise helper (`η i j` is the
draw used for coordinate `j` of point `i`).
-/

noncomputable section

open Real

/-- Model of `rand::Rng::gen_range(lo..hi)` on `f64`: panics (`none`) unless
`lo < hi`, otherwise maps the underlying uniform draw `u ∈ [0,1)` affinely
onto `[lo, hi)`. -/
def gen_range (lo hi u : ℝ) : Option ℝ :=
  if lo < hi then some (lo + u * (hi - lo)) else none

/-- Model of `f64::cbrt` on the nonnegative draws it is applied to. -/
def cbrt (x : ℝ) : ℝ := x ^ ((1 : ℝ) / 3)

/-- One point's worth of the noise loop in `add_noise`: add a fresh
`gen_range lo hi` sample to every coordinate, consuming one draw of `η` per
coordinate. -/
def addNoisePoint (lo hi : ℝ) (η : ℕ → ℝ) : List ℝ → Option (List ℝ)
  | [] => some []
  | c :: rest =>
      (gen_range lo hi (η 0)).bind fun d =>
      (addNoisePoint lo hi (fun j => η (j + 1)) rest).bind fun rest2 =>
      some ((c + d) :: rest2)

/-- The outer loop of `add_noise`: perturb every point in order. -/
def addNoiseCloud (lo hi : ℝ) (η : ℕ → ℕ → ℝ) : List (List ℝ) → Option (List (List ℝ))
  | [] => some []
  | p :: ps =>
      (addNoisePoint lo hi (η 0) p).bind fun p2 =>
      (addNoiseCloud lo hi (fun i => η (i + 1)) ps).bind fun ps2 =>
      some (p2 :: ps2)

/-- `add_noise`: add i.i.d. uniform noise in `noise_range` to every coordinate
(no-op when `noise_range` is `none`). -/
def add_noise (points : List (List ℝ)) (noise_range : Option (ℝ × ℝ)) (η : ℕ → ℕ → ℝ) :
    Option (List (List ℝ)) :=
  match noise_range with
  | none => some points
  | some (lo, hi) => addNoiseCloud lo hi η points

/-- The per-point closure `circpoint` of `unit_circle`:
`theta = k as f64 * 2.0 * PI / m as f64; [theta.cos(), theta.sin()]`. -/
def circpoint (m k : ℕ) : List ℝ :=
  let theta := (k : ℝ) * 2 * Real.pi / (m : ℝ)
  [Real.cos theta, Real.sin theta]

/-- `unit_circle`: `m` evenly spaced points on the unit circle, then noise. -/
def unit_circle (m : ℕ) (noise_range : Option (ℝ × ℝ)) (η : ℕ → ℕ → ℝ) :
    Option (List (List ℝ)) :=
  add_noise ((List.range m).map (circpoint m)) noise_range η

/-- The `for _ in 0..m { pts.push(...) }` loop: generate the point of each
iteration in order, failing if any iteration fails. -/
def genPoints (f : ℕ → Option (List ℝ)) : ℕ → Option (List (List ℝ))
  | 0 => some []
  | n + 1 =>
      (genPoints f n).bind fun ps =>
      (f n).bind fun p =>
      some (ps ++ [p])

/-- Loop body of `unit_sphere_surface`: `theta = gen_range(0..2π)`,
`z = gen_range(-1..1)`, `r = sqrt(1 - z*z)`, point `[r cos θ, r sin θ, z]`. -/
def spherePoint (tdraw zdraw : ℝ) : Option (List ℝ) :=
  (gen_range 0 (2 * Real.pi) tdraw).bind fun theta =>
  (gen_range (-1) 1 zdraw).bind fun z =>
    let r := Real.sqrt (1 - z * z)
    some [r * Real.cos theta, r * Real.sin theta, z]

/-- `unit_sphere_surface`: `m` independent surface points, then noise.
Point `n` consumes draws `u (2n)` (theta) and `u (2n+1)` (z). -/
def unit_sphere_surface (m : ℕ) (noise_range : Option (ℝ × ℝ)) (u : ℕ → ℝ)
    (η : ℕ → ℕ → ℝ) : Option (List (List ℝ)) :=
  (genPoints (fun n => spherePoint (u (2 * n)) (u (2 * n + 1))) m).bind fun pts =>
  add_noise pts noise_range η

/-- Loop body of `unit_ball`: a unit direction from the sphere construction and
a radius `r = gen::<f64>().cbrt()`; point `r • dir`. -/
def ballPoint (tdraw zdraw rdraw : ℝ) : Option (List ℝ) :=
  (gen_range 0 (2 * Real.pi) tdraw).bind fun theta =>
  (gen_range (-1) 1 zdraw).bind fun z =>
    let r_xy := Real.sqrt (1 - z * z)
    let r := cbrt rdraw
    some [r * (r_xy * Real.cos theta), r * (r_xy * Real.sin theta), r * z]

/-- `unit_ball`: `m` independent interior points, then noise. Point `n`
consumes draws `u (3n)` (theta), `u (3n+1)` (z), `u (3n+2)` (radius). -/
def unit_ball (m : ℕ) (noise_range : Option (ℝ × ℝ)) (u : ℕ → ℝ)
    (η : ℕ → ℕ → ℝ) : Option (List (List ℝ)) :=
  (genPoints (fun n => ballPoint (u (3 * n)) (u (3 * n + 1)) (u (3 * n + 2))) m).bind fun pts =>
  add_noise pts noise_range η

/-- Loop body of `torus`: `u, v = gen_range(0..2π)` and the torus
parametrization `((R + r cos v) cos u, (R + r cos v) sin u, r sin v)`. -/
def torusPoint (major minor udraw vdraw : ℝ) : Option (List ℝ) :=
  (gen_range 0 (2 * Real.pi) udraw).bind fun uu =>
  (gen_range 0 (2 * Real.pi) vdraw).bind fun v =>
    some [(major + minor * Real.cos v) * Real.cos uu,
          (major + minor * Real.cos v) * Real.sin uu,
          minor * Real.sin v]

/-- `torus`: asserts `major > 0 && minor > 0` (the failed assertion is the
`none` branch), then `m` points on the torus surface, then noise. Point `n`
consumes draws `u (2n)` and `u (2n+1)`. -/
def torus (m : ℕ) (major minor : ℝ) (noise_range : Option (ℝ × ℝ)) (u : ℕ → ℝ)
    (η : ℕ → ℕ → ℝ) : Option (List (List ℝ)) :=
  if 0 < major ∧ 0 < minor then
    (genPoints (fun n => torusPoint major minor (u (2 * n)) (u (2 * n + 1))) m).bind fun pts =>
    add_noise pts noise_range η
  else none

end

/-! ### Basic lemmas about the embedding -/

theorem two_pi_pos : (0 : ℝ) < 2 * Real.pi := by positivity

theorem gen_range_of_lt {lo hi : ℝ} (u : ℝ) (h : lo < hi) :
    gen_range lo hi u = some (lo + u * (hi - lo)) := by
  simp [gen_range, h]

theorem gen_range_of_not_lt {lo hi : ℝ} (u : ℝ) (h : ¬ lo < hi) :
    gen_range lo hi u = none := by
  simp [gen_range, h]

theorem gen_range_mem {lo hi u : ℝ} (h : lo < hi) (h0 : 0 ≤ u) (h1 : u < 1) :
    lo ≤ lo + u * (hi - lo) ∧ lo + u * (hi - lo) < hi := by
  constructor
  · nlinarith
  · nlinarith

/-- Theta draws always succeed: the range `0..2π` is valid. -/
theorem gen_range_two_pi (t : ℝ) :
    gen_range 0 (2 * Real.pi) t = some (0 + t * (2 * Real.pi - 0)) :=
  gen_range_of_lt t two_pi_pos

/-- Z draws always succeed: the range `-1..1` is valid. -/
theorem gen_range_neg_one_one (t : ℝ) :
    gen_range (-1) 1 t = some (-1 + t * (1 - -1)) :=
  gen_range_of_lt t (by norm_num)

theorem genPoints_eq_map {f : ℕ → Option (List ℝ)} {g : ℕ → List ℝ}
    (h : ∀ k, f k = some (g k)) (n : ℕ) :
    genPoints f n = some ((List.range n).map g) := by
  induction n with
  | zero => simp [genPoints]
  | succ n ih =>
      simp [genPoints, ih, h n, List.range_succ]

theorem genPoints_length {f : ℕ → Option (List ℝ)} {n : ℕ} {pts : List (List ℝ)}
    (h : genPoints f n = some pts) : pts.length = n := by
  induction n generalizing pts with
  | zero => simp [genPoints] at h; simp [← h]
  | succ n ih =>
      simp only [genPoints, Option.bind_eq_some] at h
      obtain ⟨ps, hps, p, hp, hcons⟩ := h
      obtain rfl : ps ++ [p] = pts := by simpa using hcons
      simp [ih hps]

theorem addNoisePoint_length {lo hi : ℝ} {η : ℕ → ℝ} :
    ∀ {cs cs2 : List ℝ}, addNoisePoint lo hi η cs = some cs2 → cs2.length = cs.length := by
  intro cs
  induction cs generalizing η with
  | nil => intro cs2 h; simp [addNoisePoint] at h; simp [← h]
  | cons c rest ih =>
      intro cs2 h
      simp only [addNoisePoint, Option.bind_eq_some] at h
      obtain ⟨d, _, rest2, hrest, hcons⟩ := h
      obtain rfl : (c + d) :: rest2 = cs2 := by simpa using hcons
      simp [ih hrest]

theorem addNoiseCloud_length {lo hi : ℝ} {η : ℕ → ℕ → ℝ} :
    ∀ {pts pts2 : List (List ℝ)},
      addNoiseCloud lo hi η pts = some pts2 → pts2.length = pts.length := by
  intro pts
  induction pts generalizing η with
  | nil => intro pts2 h; simp [addNoiseCloud] at h; simp [← h]
  | cons p ps ih =>
      intro pts2 h
      simp only [addNoiseCloud, Option.bind_eq_some] at h
      obtain ⟨p2, _, ps2, hps, hcons⟩ := h
      obtain rfl : p2 :: ps2 = pts2 := by simpa using hcons
      simp [ih hps]

theorem add_noise_length {pts pts2 : List (List ℝ)} {nr : Option (ℝ × ℝ)}
    {η : ℕ → ℕ → ℝ} (h : add_noise pts nr η = some pts2) : pts2.length = pts.length := by
  match nr with
  | none => simp [add_noise] at h; simp [← h]
  | some (lo, hi) => exact addNoiseCloud_length h

theorem add_noise_none (pts : List (List ℝ)) (η : ℕ → ℕ → ℝ) :
    add_noise pts none η = some pts := rfl

/-- With an invalid range, noising a point that has at least one coordinate
fails. -/
theorem addNoisePoint_not_lt {lo hi : ℝ} {η : ℕ → ℝ} (h : ¬ lo < hi)
    (c : ℝ) (cs : List ℝ) : addNoisePoint lo hi η (c :: cs) = none := by
  simp [addNoisePoint, gen_range_of_not_lt _ h]

theorem addNoiseCloud_not_lt {lo hi : ℝ} {η : ℕ → ℕ → ℝ} (h : ¬ lo < hi)
    (c : ℝ) (cs : List ℝ) (ps : List (List ℝ)) :
    addNoiseCloud lo hi η ((c :: cs) :: ps) = none := by
  simp [addNoiseCloud, addNoisePoint_not_lt h]

/-! ### Values of the per-point generators (all internal ranges are valid) -/

noncomputable section

/-- The value `spherePoint` produces (its internal draws never fail). -/
def sphereRaw (tdraw zdraw : ℝ) : List ℝ :=
  let theta := 0 + tdraw * (2 * Real.pi - 0)
  let z := -1 + zdraw * (1 - -1)
  [Real.sqrt (1 - z * z) * Real.cos theta, Real.sqrt (1 - z * z) * Real.sin theta, z]

/-- The value `ballPoint` produces. -/
def ballRaw (tdraw zdraw rdraw : ℝ) : List ℝ :=
  let theta := 0 + tdraw * (2 * Real.pi - 0)
  let z := -1 + zdraw * (1 - -1)
  [cbrt rdraw * (Real.sqrt (1 - z * z) * Real.cos theta),
   cbrt rdraw * (Real.sqrt (1 - z * z) * Real.sin theta),
   cbrt rdraw * z]

/-- The value `torusPoint` produces. -/
def torusRaw (major minor udraw vdraw : ℝ) : List ℝ :=
  let uu := 0 + udraw * (2 * Real.pi - 0)
  let v := 0 + vdraw * (2 * Real.pi - 0)
  [(major + minor * Real.cos v) * Real.cos uu,
   (major + minor * Real.cos v) * Real.sin uu,
   minor * Real.sin v]

end

theorem spherePoint_eq (t z : ℝ) : spherePoint t z = some (sphereRaw t z) := by
  simp [spherePoint, sphereRaw, gen_range_two_pi, gen_range_neg_one_one]

theorem ballPoint_eq (t z r : ℝ) : ballPoint t z r = some (ballRaw t z r) := by
  simp [ballPoint, ballRaw, gen_range_two_pi, gen_range_neg_one_one]

theorem torusPoint_eq (R r t v : ℝ) : torusPoint R r t v = some (torusRaw R r t v) := by
  simp [torusPoint, torusRaw, gen_range_two_pi]

/-- For a z-draw in `[0,1)`, the resulting z-coordinate lies in `[-1, 1)`. -/
theorem zval_bounds {zdraw : ℝ} (h0 : 0 ≤ zdraw) (h1 : zdraw < 1) :
    -1 ≤ -1 + zdraw * (1 - -1) ∧ -1 + zdraw * (1 - -1) < 1 :=
  gen_range_mem (by norm_num) h0 h1

/-- A sphere-construction direction is a unit vector whenever `-1 ≤ z ≤ 1`. -/
theorem dir_unit {z : ℝ} (theta : ℝ) (hz : z * z ≤ 1) :
    (Real.sqrt (1 - z * z) * Real.cos theta) ^ 2 +
      (Real.sqrt (1 - z * z) * Real.sin theta) ^ 2 + z ^ 2 = 1 := by
  have hnn : 0 ≤ 1 - z * z := by linarith
  have hs : Real.sqrt (1 - z * z) ^ 2 = 1 - z * z := Real.sq_sqrt hnn
  calc (Real.sqrt (1 - z * z) * Real.cos theta) ^ 2 +
        (Real.sqrt (1 - z * z) * Real.sin theta) ^ 2 + z ^ 2
      = Real.sqrt (1 - z * z) ^ 2 * (Real.sin theta ^ 2 + Real.cos theta ^ 2) + z ^ 2 := by
        ring
    _ = (1 - z * z) * 1 + z ^ 2 := by rw [hs, Real.sin_sq_add_cos_sq]
    _ = 1 := by ring

/-! ### Claim theorems -/

/-- Claim C6: for every `m` and any noise interval, if `major ≤ 0` or
`minor ≤ 0` the torus sampler fails before any sampling work (returns no
points at all). -/
theorem torus_invalid_radii (m : ℕ) (major minor : ℝ) (nr : Option (ℝ × ℝ))
    (u : ℕ → ℝ) (η : ℕ → ℕ → ℝ) (h : major ≤ 0 ∨ minor ≤ 0) :
    torus m major minor nr u η = none := by
  have hneg : ¬ (0 < major ∧ 0 < minor) := by
    rcases h with h | h
    · exact fun hc => absurd hc.1 (not_lt.mpr h)
    · exact fun hc => absurd hc.2 (not_lt.mpr h)
  simp [torus, hneg]

theorem torus_invalid_radii_witness :
    ((-1 : ℝ) ≤ 0 ∨ (1 : ℝ) ≤ 0) ∧
      torus 5 (-1) 1 none (fun _ => 0) (fun _ _ => 0) = none :=
  ⟨Or.inl (by norm_num),
   torus_invalid_radii 5 (-1) 1 none (fun _ => 0) (fun _ _ => 0) (Or.inl (by norm_num))⟩

/-- Components of a torus point: exact tube distance `minor` from the central
circle of radius `major`, given `0 < minor < major`. -/
theorem torusRaw_tube (R r t v0 : ℝ) (hRr : r < R) (h0 : 0 < r) :
    ∃ x y z, torusRaw R r t v0 = [x, y, z] ∧
      (Real.sqrt (x ^ 2 + y ^ 2) - R) ^ 2 + z ^ 2 = r ^ 2 := by
  refine ⟨(R + r * Real.cos (0 + v0 * (2 * Real.pi - 0))) * Real.cos (0 + t * (2 * Real.pi - 0)),
          (R + r * Real.cos (0 + v0 * (2 * Real.pi - 0))) * Real.sin (0 + t * (2 * Real.pi - 0)),
          r * Real.sin (0 + v0 * (2 * Real.pi - 0)), rfl, ?_⟩
  set uu := 0 + t * (2 * Real.pi - 0) with huu
  set v := 0 + v0 * (2 * Real.pi - 0) with hv
  have hpos : 0 ≤ R + r * Real.cos v := by nlinarith [Real.neg_one_le_cos v]
  have hxy : ((R + r * Real.cos v) * Real.cos uu) ^ 2 +
      ((R + r * Real.cos v) * Real.sin uu) ^ 2 = (R + r * Real.cos v) ^ 2 := by
    calc ((R + r * Real.cos v) * Real.cos uu) ^ 2 + ((R + r * Real.cos v) * Real.sin uu) ^ 2
        = (R + r * Real.cos v) ^ 2 * (Real.sin uu ^ 2 + Real.cos uu ^ 2) := by ring
      _ = (R + r * Real.cos v) ^ 2 := by rw [Real.sin_sq_add_cos_sq]; ring
  rw [hxy, Real.sqrt_sq hpos]
  calc (R + r * Real.cos v - R) ^ 2 + (r * Real.sin v) ^ 2
      = r ^ 2 * (Real.sin v ^ 2 + Real.cos v ^ 2) := by ring
    _ = r ^ 2 := by rw [Real.sin_sq_add_cos_sq]; ring

/-- Components of a sphere-surface point: exactly unit norm, for a z-draw in
`[0,1)`. -/
theorem sphereRaw_spec (t z0 : ℝ) (h0 : 0 ≤ z0) (h1 : z0 < 1) :
    ∃ x y z, sphereRaw t z0 = [x, y, z] ∧ x ^ 2 + y ^ 2 + z ^ 2 = 1 := by
  have hb := zval_bounds h0 h1
  have hz2 : (-1 + z0 * (1 - -1)) * (-1 + z0 * (1 - -1)) ≤ 1 := by nlinarith [hb.1, hb.2]
  exact ⟨_, _, _, rfl, dir_unit (0 + t * (2 * Real.pi - 0)) hz2⟩

/-- Components of a ball point: the cube-root radius times a unit direction,
with squared norm at most `1`. -/
theorem ballRaw_spec (t z0 r0 : ℝ) (hz0 : 0 ≤ z0) (hz1 : z0 < 1)
    (hr0 : 0 ≤ r0) (hr1 : r0 < 1) :
    ∃ dx dy dz, dx ^ 2 + dy ^ 2 + dz ^ 2 = 1 ∧
      ballRaw t z0 r0 = [cbrt r0 * dx, cbrt r0 * dy, cbrt r0 * dz] ∧
      (cbrt r0 * dx) ^ 2 + (cbrt r0 * dy) ^ 2 + (cbrt r0 * dz) ^ 2 ≤ 1 := by
  have hb := zval_bounds hz0 hz1
  have hz2 : (-1 + z0 * (1 - -1)) * (-1 + z0 * (1 - -1)) ≤ 1 := by nlinarith [hb.1, hb.2]
  have hd := dir_unit (0 + t * (2 * Real.pi - 0)) hz2
  refine ⟨_, _, _, hd, rfl, ?_⟩
  have hc0 : 0 ≤ cbrt r0 := Real.rpow_nonneg hr0 _
  have hc1 : cbrt r0 < 1 := Real.rpow_lt_one hr0 hr1 (by norm_num)
  have hsq : cbrt r0 ^ 2 ≤ 1 := by nlinarith [hc0, hc1]
  nlinarith [hd, hsq]

/-- Claim C10: the torus sampler's only checked precondition is strict
positivity of both radii; for all `major > 0`, `minor > 0` (even when
`minor ≥ major`) the assertion does not fire and the sampler returns `m`
points of dimension 3. -/
theorem torus_valid_radii (m : ℕ) (major minor : ℝ) (u : ℕ → ℝ) (η : ℕ → ℕ → ℝ)
    (hmaj : 0 < major) (hmin : 0 < minor) :
    ∃ pts, torus m major minor none u η = some pts ∧ pts.length = m ∧
      ∀ p ∈ pts, p.length = 3 := by
  refine ⟨(List.range m).map (fun n => torusRaw major minor (u (2 * n)) (u (2 * n + 1))),
          ?_, by simp, ?_⟩
  · rw [torus, if_pos ⟨hmaj, hmin⟩, genPoints_eq_map (fun k => torusPoint_eq _ _ _ _) m]
    simp [add_noise]
  · intro p hp
    obtain ⟨n, _, rfl⟩ := List.mem_map.mp hp
    simp [torusRaw]

theorem torus_valid_radii_witness :
    (0 : ℝ) < 1 ∧ (0 : ℝ) < 2 ∧
      ∃ pts, torus 2 1 2 none (fun _ => 0) (fun _ _ => 0) = some pts ∧ pts.length = 2 ∧
        ∀ p ∈ pts, p.length = 3 :=
  ⟨by norm_num, by norm_num,
   torus_valid_radii 2 1 2 (fun _ => 0) (fun _ _ => 0) (by norm_num) (by norm_num)⟩

/-- Claim C5: every point of the sphere-surface sampler without noise has
`x² + y² + z² = 1` (exactly, in the real-number idealisation). -/
theorem unit_sphere_surface_on_sphere (m : ℕ) (u : ℕ → ℝ) (η : ℕ → ℕ → ℝ)
    (hu : ∀ n, 0 ≤ u n ∧ u n < 1) :
    ∃ pts, unit_sphere_surface m none u η = some pts ∧ pts.length = m ∧
      ∀ p ∈ pts, ∃ x y z, p = [x, y, z] ∧ x ^ 2 + y ^ 2 + z ^ 2 = 1 := by
  refine ⟨(List.range m).map (fun n => sphereRaw (u (2 * n)) (u (2 * n + 1))), ?_, by simp, ?_⟩
  · rw [unit_sphere_surface, genPoints_eq_map (fun k => spherePoint_eq _ _) m]
    simp [add_noise]
  · intro p hp
    obtain ⟨n, _, rfl⟩ := List.mem_map.mp hp
    exact sphereRaw_spec (u (2 * n)) (u (2 * n + 1)) (hu _).1 (hu _).2

theorem unit_sphere_surface_on_sphere_witness :
    (∀ n : ℕ, 0 ≤ (0 : ℝ) ∧ (0 : ℝ) < 1) ∧
      ∃ pts, unit_sphere_surface 2 none (fun _ => 0) (fun _ _ => 0) = some pts ∧
        pts.length = 2 ∧ ∀ p ∈ pts, ∃ x y z, p = [x, y, z] ∧ x ^ 2 + y ^ 2 + z ^ 2 = 1 :=
  ⟨fun _ => ⟨le_refl 0, by norm_num⟩,
   unit_sphere_surface_on_sphere 2 (fun _ => 0) (fun _ _ => 0)
     (fun _ => ⟨le_refl 0, by norm_num⟩)⟩

/-- Claim C2: for `major > minor > 0`, every point of the torus sampler
without noise satisfies `(√(x² + y²) − R)² + z² = r²` (exactly, in the
real-number idealisation). -/
theorem torus_points_on_tube (m : ℕ) (major minor : ℝ) (u : ℕ → ℝ) (η : ℕ → ℕ → ℝ)
    (hRr : minor < major) (h0 : 0 < minor) :
    ∃ pts, torus m major minor none u η = some pts ∧ pts.length = m ∧
      ∀ p ∈ pts, ∃ x y z, p = [x, y, z] ∧
        (Real.sqrt (x ^ 2 + y ^ 2) - major) ^ 2 + z ^ 2 = minor ^ 2 := by
  have hmaj : 0 < major := lt_trans h0 hRr
  refine ⟨(List.range m).map (fun n => torusRaw major minor (u (2 * n)) (u (2 * n + 1))),
          ?_, by simp, ?_⟩
  · rw [torus, if_pos ⟨hmaj, h0⟩, genPoints_eq_map (fun k => torusPoint_eq _ _ _ _) m]
    simp [add_noise]
  · intro p hp
    obtain ⟨n, _, rfl⟩ := List.mem_map.mp hp
    exact torusRaw_tube major minor (u (2 * n)) (u (2 * n + 1)) hRr h0

theorem torus_points_on_tube_witness :
    (1 / 2 : ℝ) < 2 ∧ (0 : ℝ) < 1 / 2 ∧
      ∃ pts, torus 3 2 (1 / 2) none (fun _ => 0) (fun _ _ => 0) = some pts ∧
        pts.length = 3 ∧ ∀ p ∈ pts, ∃ x y z, p = [x, y, z] ∧
          (Real.sqrt (x ^ 2 + y ^ 2) - 2) ^ 2 + z ^ 2 = (1 / 2 : ℝ) ^ 2 :=
  ⟨by norm_num, by norm_num,
   torus_points_on_tube 3 2 (1 / 2) (fun _ => 0) (fun _ _ => 0) (by norm_num) (by norm_num)⟩

/-- Claim C1: every point of the solid-ball sampler without noise lies in the
unit ball, and is the cube root `cbrt` of the point's uniform `[0,1)` radius
draw times a unit direction vector. -/
theorem unit_ball_points (m : ℕ) (u : ℕ → ℝ) (η : ℕ → ℕ → ℝ)
    (hu : ∀ n, 0 ≤ u n ∧ u n < 1) :
    ∃ pts, unit_ball m none u η = some pts ∧ pts.length = m ∧
      ∀ p ∈ pts, ∃ n dx dy dz, n < m ∧ dx ^ 2 + dy ^ 2 + dz ^ 2 = 1 ∧
        p = [cbrt (u (3 * n + 2)) * dx, cbrt (u (3 * n + 2)) * dy,
             cbrt (u (3 * n + 2)) * dz] ∧
        (cbrt (u (3 * n + 2)) * dx) ^ 2 + (cbrt (u (3 * n + 2)) * dy) ^ 2 +
          (cbrt (u (3 * n + 2)) * dz) ^ 2 ≤ 1 := by
  refine ⟨(List.range m).map
            (fun n => ballRaw (u (3 * n)) (u (3 * n + 1)) (u (3 * n + 2))), ?_, by simp, ?_⟩
  · rw [unit_ball, genPoints_eq_map (fun k => ballPoint_eq _ _ _) m]
    simp [add_noise]
  · intro p hp
    obtain ⟨n, hn, rfl⟩ := List.mem_map.mp hp
    obtain ⟨dx, dy, dz, h1, h2, h3⟩ :=
      ballRaw_spec (u (3 * n)) (u (3 * n + 1)) (u (3 * n + 2))
        (hu _).1 (hu _).2 (hu _).1 (hu _).2
    exact ⟨n, dx, dy, dz, List.mem_range.mp hn, h1, h2, h3⟩

theorem unit_ball_points_witness :
    (∀ n : ℕ, 0 ≤ (0 : ℝ) ∧ (0 : ℝ) < 1) ∧
      ∃ pts, unit_ball 2 none (fun _ => 0) (fun _ _ => 0) = some pts ∧ pts.length = 2 ∧
        ∀ p ∈ pts, ∃ n dx dy dz, n < 2 ∧ dx ^ 2 + dy ^ 2 + dz ^ 2 = 1 ∧
          p = [cbrt 0 * dx, cbrt 0 * dy, cbrt 0 * dz] ∧
          (cbrt 0 * dx) ^ 2 + (cbrt 0 * dy) ^ 2 + (cbrt 0 * dz) ^ 2 ≤ 1 :=
  ⟨fun _ => ⟨le_refl 0, by norm_num⟩,
   unit_ball_points 2 (fun _ => 0) (fun _ _ => 0) (fun _ => ⟨le_refl 0, by norm_num⟩)⟩

theorem add_noise_nil (nr : Option (ℝ × ℝ)) (η : ℕ → ℕ → ℝ) :
    add_noise [] nr η = some [] := by
  match nr with
  | none => rfl
  | some (lo, hi) => rfl

/-- Claim C8: every sampler that returns at all returns exactly `m` points,
and `m = 0` yields the empty cloud for all four samplers (the per-point
closure is never reached, so there is nothing to divide by zero). -/
theorem samplers_count (m : ℕ) (nr : Option (ℝ × ℝ)) (u : ℕ → ℝ) (η : ℕ → ℕ → ℝ)
    (major minor : ℝ) (hmaj : 0 < major) (hmin : 0 < minor) :
    (∀ pts, unit_circle m nr η = some pts → pts.length = m) ∧
    (∀ pts, unit_sphere_surface m nr u η = some pts → pts.length = m) ∧
    (∀ pts, unit_ball m nr u η = some pts → pts.length = m) ∧
    (∀ pts, torus m major minor nr u η = some pts → pts.length = m) ∧
    unit_circle 0 nr η = some [] ∧
    unit_sphere_surface 0 nr u η = some [] ∧
    unit_ball 0 nr u η = some [] ∧
    torus 0 major minor nr u η = some [] := by
  refine ⟨?_, ?_, ?_, ?_, ?_, ?_, ?_, ?_⟩
  · intro pts h
    simp only [unit_circle] at h
    simpa using add_noise_length h
  · intro pts h
    simp only [unit_sphere_surface, Option.bind_eq_some] at h
    obtain ⟨mid, hmid, hnoise⟩ := h
    rw [add_noise_length hnoise, genPoints_length hmid]
  · intro pts h
    simp only [unit_ball, Option.bind_eq_some] at h
    obtain ⟨mid, hmid, hnoise⟩ := h
    rw [add_noise_length hnoise, genPoints_length hmid]
  · intro pts h
    simp only [torus, hmaj, hmin, and_self, if_true, Option.bind_eq_some] at h
    obtain ⟨mid, hmid, hnoise⟩ := h
    rw [add_noise_length hnoise, genPoints_length hmid]
  · simp [unit_circle, add_noise_nil]
  · simp [unit_sphere_surface, genPoints, add_noise_nil]
  · simp [unit_ball, genPoints, add_noise_nil]
  · simp [torus, hmaj, hmin, genPoints, add_noise_nil]

theorem samplers_count_witness :
    (0 : ℝ) < 1 ∧ (0 : ℝ) < 2 ∧
      ((∀ pts, unit_circle 3 none (fun _ _ => 0) = some pts → pts.length = 3) ∧
       (∀ pts, unit_sphere_surface 3 none (fun _ => 0) (fun _ _ => 0) = some pts →
          pts.length = 3) ∧
       (∀ pts, unit_ball 3 none (fun _ => 0) (fun _ _ => 0) = some pts → pts.length = 3) ∧
       (∀ pts, torus 3 1 2 none (fun _ => 0) (fun _ _ => 0) = some pts → pts.length = 3) ∧
       unit_circle 0 none (fun _ _ => 0) = some [] ∧
       unit_sphere_surface 0 none (fun _ => 0) (fun _ _ => 0) = some [] ∧
       unit_ball 0 none (fun _ => 0) (fun _ _ => 0) = some [] ∧
       torus 0 1 2 none (fun _ => 0) (fun _ _ => 0) = some []) :=
  ⟨by norm_num, by norm_num,
   samplers_count 3 none (fun _ => 0) (fun _ _ => 0) 1 2 (by norm_num) (by norm_num)⟩

/-- Claim C9: with an invalid noise interval (`hi ≤ lo`) every sampler fails
for `m ≥ 1` (the draw model returns `none`, as `gen_range` panics on an empty
or reversed range), uniformly across all four samplers; with `m = 0` no draw
happens and the empty cloud is returned. -/
theorem invalid_noise_behavior (m : ℕ) (lo hi major minor : ℝ) (u : ℕ → ℝ)
    (η : ℕ → ℕ → ℝ) (hr : hi ≤ lo) (hm : 1 ≤ m) (hmaj : 0 < major) (hmin : 0 < minor) :
    (unit_circle m (some (lo, hi)) η = none ∧
     unit_sphere_surface m (some (lo, hi)) u η = none ∧
     unit_ball m (some (lo, hi)) u η = none ∧
     torus m major minor (some (lo, hi)) u η = none) ∧
    (unit_circle 0 (some (lo, hi)) η = some [] ∧
     unit_sphere_surface 0 (some (lo, hi)) u η = some [] ∧
     unit_ball 0 (some (lo, hi)) u η = some [] ∧
     torus 0 major minor (some (lo, hi)) u η = some []) := by
  have hnlt : ¬ lo < hi := not_lt.mpr hr
  obtain ⟨k, rfl⟩ : ∃ k, m = k + 1 := ⟨m - 1, (Nat.succ_pred_eq_of_pos hm).symm⟩
  refine ⟨⟨?_, ?_, ?_, ?_⟩, ?_, ?_, ?_, ?_⟩
  · simp only [unit_circle, add_noise]
    rw [List.range_succ_eq_map]
    simp only [List.map_cons]
    exact addNoiseCloud_not_lt hnlt _ _ _
  · simp only [unit_sphere_surface]
    rw [genPoints_eq_map (fun j => spherePoint_eq (u (2 * j)) (u (2 * j + 1))) (k + 1)]
    simp only [Option.some_bind, add_noise]
    rw [List.range_succ_eq_map]
    simp only [List.map_cons]
    exact addNoiseCloud_not_lt hnlt _ _ _
  · simp only [unit_ball]
    rw [genPoints_eq_map
      (fun j => ballPoint_eq (u (3 * j)) (u (3 * j + 1)) (u (3 * j + 2))) (k + 1)]
    simp only [Option.some_bind, add_noise]
    rw [List.range_succ_eq_map]
    simp only [List.map_cons]
    exact addNoiseCloud_not_lt hnlt _ _ _
  · simp only [torus, hmaj, hmin, and_self, if_true]
    rw [genPoints_eq_map
      (fun j => torusPoint_eq major minor (u (2 * j)) (u (2 * j + 1))) (k + 1)]
    simp only [Option.some_bind, add_noise]
    rw [List.range_succ_eq_map]
    simp only [List.map_cons]
    exact addNoiseCloud_not_lt hnlt _ _ _
  · simp [unit_circle, add_noise, addNoiseCloud]
  · simp [unit_sphere_surface, genPoints, add_noise, addNoiseCloud]
  · simp [unit_ball, genPoints, add_noise, addNoiseCloud]
  · simp [torus, hmaj, hmin, genPoints, add_noise, addNoiseCloud]

theorem invalid_noise_behavior_witness :
    (0 : ℝ) ≤ 1 ∧ 1 ≤ 1 ∧ (0 : ℝ) < 1 ∧ (0 : ℝ) < 1 ∧
      ((unit_circle 1 (some (1, 0)) (fun _ _ => 0) = none ∧
        unit_sphere_surface 1 (some (1, 0)) (fun _ => 0) (fun _ _ => 0) = none ∧
        unit_ball 1 (some (1, 0)) (fun _ => 0) (fun _ _ => 0) = none ∧
        torus 1 1 1 (some (1, 0)) (fun _ => 0) (fun _ _ => 0) = none) ∧
       (unit_circle 0 (some (1, 0)) (fun _ _ => 0) = some [] ∧
        unit_sphere_surface 0 (some (1, 0)) (fun _ => 0) (fun _ _ => 0) = some [] ∧
        unit_ball 0 (some (1, 0)) (fun _ => 0) (fun _ _ => 0) = some [] ∧
        torus 0 1 1 (some (1, 0)) (fun _ => 0) (fun _ _ => 0) = some [])) :=
  ⟨by norm_num, le_refl 1, by norm_num, by norm_num,
   invalid_noise_behavior 1 1 0 1 1 (fun _ => 0) (fun _ _ => 0)
     (by norm_num) (le_refl 1) (by norm_num) (by norm_num)⟩

/-- With a valid interval and in-range draws, noising one point succeeds and
adds to each coordinate a fresh value in `[lo, hi)`. -/
theorem addNoisePoint_spec {lo hi : ℝ} (hlt : lo < hi) :
    ∀ (cs : List ℝ) (η : ℕ → ℝ), (∀ j, 0 ≤ η j ∧ η j < 1) →
      ∃ cs2 : List ℝ, addNoisePoint lo hi η cs = some cs2 ∧ cs2.length = cs.length ∧
        ∀ (j : ℕ) (c : ℝ), cs[j]? = some c →
          ∃ d, lo ≤ d ∧ d < hi ∧ cs2[j]? = some (c + d) := by
  intro cs
  induction cs with
  | nil =>
      intro η hη
      refine ⟨[], rfl, rfl, ?_⟩
      intro j c h
      simp at h
  | cons c rest ih =>
      intro η hη
      obtain ⟨rest2, hr2, hlen, hval⟩ := ih (fun j => η (j + 1)) (fun j => hη (j + 1))
      refine ⟨(c + (lo + η 0 * (hi - lo))) :: rest2, ?_, by simp [hlen], ?_⟩
      · simp [addNoisePoint, gen_range_of_lt _ hlt, hr2]
      · intro j c0 hj
        cases j with
        | zero =>
            simp only [List.getElem?_cons_zero, Option.some.injEq] at hj
            exact ⟨lo + η 0 * (hi - lo), (gen_range_mem hlt (hη 0).1 (hη 0).2).1,
                   (gen_range_mem hlt (hη 0).1 (hη 0).2).2, by simp [hj]⟩
        | succ j =>
            simp only [List.getElem?_cons_succ] at hj ⊢
            exact hval j c0 hj

/-- With a valid interval and in-range draws, noising a cloud succeeds,
preserves its shape, and perturbs every coordinate by a value in `[lo, hi)`. -/
theorem addNoiseCloud_spec {lo hi : ℝ} (hlt : lo < hi) :
    ∀ (pts : List (List ℝ)) (η : ℕ → ℕ → ℝ), (∀ i j, 0 ≤ η i j ∧ η i j < 1) →
      ∃ pts2 : List (List ℝ), addNoiseCloud lo hi η pts = some pts2 ∧
        pts2.length = pts.length ∧
        ∀ (i : ℕ) (p : List ℝ), pts[i]? = some p →
          ∃ p2 : List ℝ, pts2[i]? = some p2 ∧ p2.length = p.length ∧
            ∀ (j : ℕ) (c : ℝ), p[j]? = some c →
              ∃ d, lo ≤ d ∧ d < hi ∧ p2[j]? = some (c + d) := by
  intro pts
  induction pts with
  | nil =>
      intro η hη
      refine ⟨[], rfl, rfl, ?_⟩
      intro i p h
      simp at h
  | cons p ps ih =>
      intro η hη
      obtain ⟨p2, hp2, hplen, hpval⟩ := addNoisePoint_spec hlt p (η 0) (fun j => hη 0 j)
      obtain ⟨ps2, hps2, hslen, hsval⟩ := ih (fun i => η (i + 1)) (fun i j => hη (i + 1) j)
      refine ⟨p2 :: ps2, ?_, by simp [hslen], ?_⟩
      · simp [addNoiseCloud, hp2, hps2]
      · intro i q hq
        cases i with
        | zero =>
            simp only [List.getElem?_cons_zero, Option.some.injEq] at hq
            subst hq
            exact ⟨p2, by simp, hplen, hpval⟩
        | succ i =>
            simp only [List.getElem?_cons_succ] at hq ⊢
            exact hsval i q hq

/-- Claim C3: with no noise interval the helper is the identity; with a valid
interval `[lo, hi)` and in-range underlying draws, each output coordinate is
the corresponding input coordinate plus a drawn value in `[lo, hi)`, and the
cloud's shape is preserved. -/
theorem add_noise_spec (pts : List (List ℝ)) (lo hi : ℝ) (η : ℕ → ℕ → ℝ)
    (hlt : lo < hi) (hη : ∀ i j, 0 ≤ η i j ∧ η i j < 1) :
    add_noise pts none η = some pts ∧
    ∃ pts2 : List (List ℝ), add_noise pts (some (lo, hi)) η = some pts2 ∧
      pts2.length = pts.length ∧
      ∀ (i : ℕ) (p : List ℝ), pts[i]? = some p →
        ∃ p2 : List ℝ, pts2[i]? = some p2 ∧ p2.length = p.length ∧
          ∀ (j : ℕ) (c : ℝ), p[j]? = some c →
            ∃ d, lo ≤ d ∧ d < hi ∧ p2[j]? = some (c + d) :=
  ⟨rfl, addNoiseCloud_spec hlt pts η hη⟩

theorem add_noise_spec_witness :
    (0 : ℝ) < 1 ∧ (∀ i j : ℕ, 0 ≤ (0 : ℝ) ∧ (0 : ℝ) < 1) ∧
      (add_noise [[(0 : ℝ), 1]] none (fun _ _ => 0) = some [[(0 : ℝ), 1]] ∧
       ∃ pts2 : List (List ℝ), add_noise [[(0 : ℝ), 1]] (some (0, 1)) (fun _ _ => 0) = some pts2 ∧
         pts2.length = [[(0 : ℝ), 1]].length ∧
         ∀ (i : ℕ) (p : List ℝ), [[(0 : ℝ), 1]][i]? = some p →
           ∃ p2 : List ℝ, pts2[i]? = some p2 ∧ p2.length = p.length ∧
             ∀ (j : ℕ) (c : ℝ), p[j]? = some c →
               ∃ d, (0 : ℝ) ≤ d ∧ d < 1 ∧ p2[j]? = some (c + d)) :=
  ⟨by norm_num, fun _ _ => ⟨le_refl 0, by norm_num⟩,
   add_noise_spec [[(0 : ℝ), 1]] 0 1 (fun _ _ => 0) (by norm_num)
     (fun _ _ => ⟨le_refl 0, by norm_num⟩)⟩

/-- Claim C4: without noise, the circle sampler's point at index `k` is
exactly `(cos (2πk/m), sin (2πk/m))`, and `unit_circle 4 none` is exactly
`[(1,0), (0,1), (-1,0), (0,-1)]` in order. -/
theorem unit_circle_points (m : ℕ) (η : ℕ → ℕ → ℝ) (k : ℕ) (hk : k < m) :
    ∃ pts : List (List ℝ), unit_circle m none η = some pts ∧ pts.length = m ∧
      pts[k]? = some [Real.cos (2 * Real.pi * k / m), Real.sin (2 * Real.pi * k / m)] ∧
      unit_circle 4 none η = some [[1, 0], [0, 1], [-1, 0], [0, -1]] := by
  refine ⟨(List.range m).map (circpoint m), rfl, by simp, ?_, ?_⟩
  · rw [List.getElem?_map, List.getElem?_range hk]
    have h1 : (k : ℝ) * 2 * Real.pi / (m : ℝ) = 2 * Real.pi * k / m := by ring
    simp [circpoint, h1]
  · have e0 : (0 : ℝ) * 2 * Real.pi / 4 = 0 := by ring
    have e1 : (1 : ℝ) * 2 * Real.pi / 4 = Real.pi / 2 := by ring
    have e2 : (2 : ℝ) * 2 * Real.pi / 4 = Real.pi := by ring
    have e3 : (3 : ℝ) * 2 * Real.pi / 4 = Real.pi + Real.pi / 2 := by ring
    have f1 : (2 : ℝ) * Real.pi / 4 = Real.pi / 2 := by ring
    have f3 : (6 : ℝ) * Real.pi / 4 = Real.pi + Real.pi / 2 := by ring
    show add_noise ((List.range 4).map (circpoint 4)) none η = _
    simp only [List.range_succ, List.range_zero, List.nil_append, List.cons_append,
      List.map_cons, List.map_nil, add_noise]
    norm_num [circpoint, e0, e1, e2, e3, f1, f3, Real.cos_pi_div_two, Real.sin_pi_div_two,
      Real.cos_pi, Real.sin_pi, Real.cos_add, Real.sin_add]

theorem unit_circle_points_witness :
    1 < 4 ∧
      ∃ pts : List (List ℝ), unit_circle 4 none (fun _ _ => 0) = some pts ∧
        pts.length = 4 ∧
        pts[1]? = some [Real.cos (2 * Real.pi * ((1 : ℕ) : ℝ) / ((4 : ℕ) : ℝ)),
                        Real.sin (2 * Real.pi * ((1 : ℕ) : ℝ) / ((4 : ℕ) : ℝ))] ∧
        unit_circle 4 none (fun _ _ => 0) = some [[1, 0], [0, 1], [-1, 0], [0, -1]] :=
  ⟨by norm_num, unit_circle_points 4 (fun _ _ => 0) 1 (by norm_num)⟩

/-- Claim C7 counterexample: the code draws `z` with `gen_range(-1.0..1.0)`,
a half-open range, so no underlying uniform draw in `[0,1)` can produce
`z = +1`; the claim that `z` is drawn from the closed interval `[-1, 1]` with
`z = +1` attainable is false of the code. -/
theorem sphere_z_top_unreachable :
    ¬ ∃ zdraw : ℝ, 0 ≤ zdraw ∧ zdraw < 1 ∧ gen_range (-1) 1 zdraw = some 1 := by
  rintro ⟨z, h0, h1, he⟩
  rw [gen_range_neg_one_one] at he
  have hv : -1 + z * (1 - -1) = 1 := Option.some.inj he
  nlinarith

/-- Claim C7 (amended): `z` is drawn uniformly from the half-open interval
`[-1, 1)`; the lower pole `z = -1` (underlying draw `0`) is a possible valid
outcome, collapsing the point to `(0, 0, -1)` with `r = 0` and no failure. -/
theorem sphere_z_half_open (zdraw : ℝ) (h0 : 0 ≤ zdraw) (h1 : zdraw < 1) :
    (∃ z : ℝ, gen_range (-1) 1 zdraw = some z ∧ -1 ≤ z ∧ z < 1) ∧
    ∀ tdraw : ℝ, spherePoint tdraw 0 = some [0, 0, -1] := by
  constructor
  · exact ⟨_, gen_range_neg_one_one zdraw, (zval_bounds h0 h1).1, (zval_bounds h0 h1).2⟩
  · intro t
    simp only [spherePoint, gen_range_two_pi, gen_range_neg_one_one, Option.some_bind]
    norm_num

theorem sphere_z_half_open_witness :
    (0 : ℝ) ≤ 0 ∧ (0 : ℝ) < 1 ∧
      ((∃ z : ℝ, gen_range (-1) 1 0 = some z ∧ -1 ≤ z ∧ z < 1) ∧
       ∀ tdraw : ℝ, spherePoint tdraw 0 = some [0, 0, -1]) :=
  ⟨le_refl 0, by norm_num, sphere_z_half_open 0 (le_refl 0) (by norm_num)⟩
